import Mathlib

/-
Verification of the grayscale morphological filter engine (dilate/erode)
of ppl.cv, as specified in spec.md and exercised by
src/src/ppl/cv/cuda/dilate_unittest.cpp.

The kernel implementation itself is an external collaborator not present
under src/ (the test file only calls `Dilate` and `Erode`); following the
spec, the engine is modelled here from the words of the specification:
border resolver (section 4.1), neighborhood/mask iterator (section 4.2),
reduction core (section 4.3) and row-range dispatcher (section 4.4).

Element values are modelled generically over a linear order: the 8-bit
unsigned type is an instance (Nat restricted to [0,256)), and the 32-bit
float type on the non-NaN domain the tests exercise is order-isomorphic
to a linear order as well; the engine performs no arithmetic on element
values, only max/min selection, so the linear order captures exactly the
comparison semantics of section 4.3. Buffer addressing through a row
stride is abstracted into indexed access src r c ch (row, column,
channel); the stride arithmetic itself carries no specified behaviour
beyond addressing.
-/

/-- Modelled from the spec: the border policies of section 3
(the enumerators keep the names `BORDER_TYPE_DEFAULT` and
`BORDER_TYPE_CONSTANT` used by the test file). -/
inductive BorderType where
  | BORDER_TYPE_DEFAULT
  | BORDER_TYPE_CONSTANT

/-- Modelled from the spec: one single application of the DEFAULT
reflection rule of section 4.1: `index < 0 → -index`;
`index ≥ N → 2N - index - 2`; an in-range index is unchanged. -/
def reflectOnce (N : Nat) (i : Int) : Int :=
  if i < 0 then -i
  else if (N : Int) ≤ i then 2 * (N : Int) - i - 2
  else i

/-- Modelled from the spec: the DEFAULT border resolver of section 4.1,
the reflection rule applied recursively whenever a single application
still yields an out-of-range index.  The recursion has no fixpoint when
`N ≤ 1` and an index is out of range (the rule cycles between -1 and 1
when `N = 1`), so the model returns 0 for `N ≤ 1`; that case is
unreachable under the precondition of section 3 that kernel dimensions
do not exceed image dimensions. -/
def reflectIdx (N : Nat) (i : Int) : Int :=
  if _h0 : N ≤ 1 then 0
  else if _h1 : i < 0 then reflectIdx N (-i)
  else if _h2 : (N : Int) ≤ i then reflectIdx N (2 * (N : Int) - i - 2)
  else i
termination_by (if i < 0 then 2 * i.natAbs + 1 else 2 * (i - ((N : Int) - 1)).toNat)
decreasing_by
  · simp_wf
    split_ifs <;> omega
  · simp_wf
    split_ifs <;> omega

/-- Modelled from the spec: the Border Resolver of section 4.1 lifted to
a neighbor read.  Given the two axis extents and a logical neighbor
coordinate (possibly out of range along either axis), it returns the
source value the cell contributes: under `BORDER_TYPE_DEFAULT` both axes
are reflected independently into range; under `BORDER_TYPE_CONSTANT` the
fill value is used when at least one axis is out of `[0, N)`, and the
actual source pixel otherwise. -/
def resolvePixel {α : Type} (border : BorderType) (fill : α) (rows cols : Nat)
    (src : Nat → Nat → Nat → α) (r c : Int) (ch : Nat) : α :=
  match border with
  | .BORDER_TYPE_DEFAULT => src (reflectIdx rows r).toNat (reflectIdx cols c).toNat ch
  | .BORDER_TYPE_CONSTANT =>
      if 0 ≤ r ∧ r < (rows : Int) ∧ 0 ≤ c ∧ c < (cols : Int) then
        src r.toNat c.toNat ch
      else fill

/-- Modelled from the spec: whether kernel cell `(i, j)` participates
(section 4.2).  The optional mask is the flat row-major buffer of
section 3: entry `i * kw + j` governs cell `(i, j)`; a nonzero entry
means the cell participates; absence of a mask means every cell
participates. -/
def cellActive (kw : Nat) (mask : Option (Nat → Nat)) (i j : Nat) : Bool :=
  match mask with
  | none => true
  | some m => m (i * kw + j) != 0

/-- Modelled from the spec: the Neighborhood/Mask Iterator of
section 4.2: the row-major list of participating kernel cells of the
`kh × kw` rectangle. -/
def activeCells (kh kw : Nat) (mask : Option (Nat → Nat)) : List (Nat × Nat) :=
  (List.range kh).flatMap fun i =>
    ((List.range kw).filter fun j => cellActive kw mask i j).map fun j => (i, j)

/-- Modelled from the spec: the reduction of section 4.3: the fold
starts from no identity seed other than the first participating value.
A zero-length reduction is a precondition violation; the model totalises
it with the explicit default `dflt` (never relevant under the
precondition of at least one participating cell). -/
def reduce1 {α : Type} (op : α → α → α) (l : List α) (dflt : α) : α :=
  match l with
  | [] => dflt
  | x :: xs => xs.foldl op x

/-- Modelled from the spec: the list of participating source values for
one output pixel and one channel: each participating cell `(i, j)` of
the structuring element is read at logical coordinates
`(r + i - kh/2, c + j - kw/2)` (anchor at the geometric center,
section 3) and resolved through the border policy. -/
def nbhdValues {α : Type} (border : BorderType) (fill : α) (rows cols : Nat)
    (src : Nat → Nat → Nat → α) (kh kw : Nat) (mask : Option (Nat → Nat))
    (r c ch : Nat) : List α :=
  (activeCells kh kw mask).map fun cell =>
    resolvePixel border fill rows cols src
      ((r : Int) + (cell.1 : Int) - ((kh / 2 : Nat) : Int))
      ((c : Int) + (cell.2 : Int) - ((kw / 2 : Nat) : Int)) ch

/-- Modelled from the spec: one output element (section 4.3): the
participating source values folded with `op` (`max` for dilation, `min`
for erosion), channels folded independently, the output element type
equal to the input element type. -/
def morphPixel {α : Type} (op : α → α → α) (rows cols : Nat)
    (src : Nat → Nat → Nat → α) (kh kw : Nat) (mask : Option (Nat → Nat))
    (border : BorderType) (fill : α) (r c ch : Nat) : α :=
  reduce1 op (nbhdValues border fill rows cols src kh kw mask r c ch) (src r c ch)

/-- Modelled from the spec: the Row-Range Dispatcher of section 4.4 and
the entry-point shape of section 6: for every output position whose row
lies in `[rowStart, rowEnd)` and whose column and channel are in range,
the engine writes the reduced value; every other element of the output
buffer keeps its previous contents `dst`. -/
def filterRange {α : Type} (op : α → α → α) (rowStart rowEnd rows cols channels : Nat)
    (src : Nat → Nat → Nat → α) (kh kw : Nat) (mask : Option (Nat → Nat))
    (dst : Nat → Nat → Nat → α) (border : BorderType) (fill : α) :
    Nat → Nat → Nat → α :=
  fun r c ch =>
    if rowStart ≤ r ∧ r < rowEnd ∧ c < cols ∧ ch < channels then
      morphPixel op rows cols src kh kw mask border fill r c ch
    else dst r c ch

/-- Modelled from the spec: the dilation entry point (per-pixel maximum
over the structuring-element neighborhood, glossary and section 4.3),
keeping the name `Dilate` used by the test file. -/
def Dilate {α : Type} [LinearOrder α] (rowStart rowEnd rows cols channels : Nat)
    (src : Nat → Nat → Nat → α) (kh kw : Nat) (mask : Option (Nat → Nat))
    (dst : Nat → Nat → Nat → α) (border : BorderType) (fill : α) :
    Nat → Nat → Nat → α :=
  filterRange max rowStart rowEnd rows cols channels src kh kw mask dst border fill

/-- Modelled from the spec: the erosion entry point (per-pixel minimum
over the structuring-element neighborhood), keeping the name `Erode`
used by the test file. -/
def Erode {α : Type} [LinearOrder α] (rowStart rowEnd rows cols channels : Nat)
    (src : Nat → Nat → Nat → α) (kh kw : Nat) (mask : Option (Nat → Nat))
    (dst : Nat → Nat → Nat → α) (border : BorderType) (fill : α) :
    Nat → Nat → Nat → α :=
  filterRange min rowStart rowEnd rows cols channels src kh kw mask dst border fill

/-- Modelled from the spec: computing an image through a list of
row-range calls (section 4.4), each call writing its band into the
output buffer produced by the previous calls. -/
def applyRanges {α : Type} (op : α → α → α) (ranges : List (Nat × Nat))
    (rows cols channels : Nat) (src : Nat → Nat → Nat → α) (kh kw : Nat)
    (mask : Option (Nat → Nat)) (dst : Nat → Nat → Nat → α)
    (border : BorderType) (fill : α) : Nat → Nat → Nat → α :=
  ranges.foldl
    (fun d p => filterRange op p.1 p.2 rows cols channels src kh kw mask d border fill)
    dst

theorem reflectIdx_low (N : Nat) (h : N ≤ 1) (i : Int) : reflectIdx N i = 0 := by
  rw [reflectIdx.eq_def]
  simp [h]

theorem reflectIdx_neg (N : Nat) (i : Int) (h : i < 0) :
    reflectIdx N i = reflectIdx N (-i) := by
  by_cases h0 : N ≤ 1
  · rw [reflectIdx_low N h0, reflectIdx_low N h0]
  · conv_lhs => rw [reflectIdx.eq_def]
    simp [h0, h]

theorem reflectIdx_high (N : Nat) (i : Int) (h : (N : Int) ≤ i) :
    reflectIdx N i = reflectIdx N (2 * (N : Int) - i - 2) := by
  by_cases h0 : N ≤ 1
  · rw [reflectIdx_low N h0, reflectIdx_low N h0]
  · have h1 : ¬ i < 0 := by omega
    conv_lhs => rw [reflectIdx.eq_def]
    simp [h0, h1, h]

theorem reflectIdx_id (N : Nat) (i : Int) (h0 : 0 ≤ i) (h1 : i < (N : Int)) :
    reflectIdx N i = i := by
  by_cases hN : N ≤ 1
  · have hi : i = 0 := by omega
    rw [reflectIdx_low N hN, hi]
  · rw [reflectIdx.eq_def]
    simp [hN, not_lt.mpr h0, not_le.mpr h1]

theorem reflectIdx_in_range (N : Nat) (i : Int) :
    0 ≤ reflectIdx N i ∧ (1 ≤ N → reflectIdx N i < (N : Int)) := by
  induction i using reflectIdx.induct (N := N) with
  | case1 x h0 =>
      rw [reflectIdx_low N h0]
      omega
  | case2 x h0 h1 ih =>
      rw [reflectIdx_neg N x h1]
      exact ih
  | case3 x h0 h1 h2 ih =>
      rw [reflectIdx_high N x h2]
      exact ih
  | case4 x h0 h1 h2 =>
      rw [reflectIdx_id N x (by omega) (by omega)]
      omega

theorem reflectIdx_toNat_lt (N : Nat) (i : Int) (hN : 1 ≤ N) :
    (reflectIdx N i).toNat < N := by
  have h := reflectIdx_in_range N i
  omega

theorem resolvePixel_in_range {α : Type} (border : BorderType) (fill : α)
    (rows cols : Nat) (src : Nat → Nat → Nat → α) (r c : Int) (ch : Nat)
    (hr0 : 0 ≤ r) (hr1 : r < (rows : Int)) (hc0 : 0 ≤ c) (hc1 : c < (cols : Int)) :
    resolvePixel border fill rows cols src r c ch = src r.toNat c.toNat ch := by
  cases border with
  | BORDER_TYPE_DEFAULT =>
      unfold resolvePixel
      rw [reflectIdx_id rows r hr0 hr1, reflectIdx_id cols c hc0 hc1]
  | BORDER_TYPE_CONSTANT =>
      unfold resolvePixel
      simp [hr0, hr1, hc0, hc1]

theorem resolvePixel_congr {α : Type} (border : BorderType) (fill : α)
    (rows cols : Nat) (src1 src2 : Nat → Nat → Nat → α) (r c : Int) (ch : Nat)
    (hrows : 1 ≤ rows) (hcols : 1 ≤ cols)
    (hsrc : ∀ a b, a < rows → b < cols → src1 a b ch = src2 a b ch) :
    resolvePixel border fill rows cols src1 r c ch
      = resolvePixel border fill rows cols src2 r c ch := by
  cases border with
  | BORDER_TYPE_DEFAULT =>
      unfold resolvePixel
      exact hsrc _ _ (reflectIdx_toNat_lt rows r hrows) (reflectIdx_toNat_lt cols c hcols)
  | BORDER_TYPE_CONSTANT =>
      unfold resolvePixel
      split_ifs with h
      · exact hsrc _ _ (by omega) (by omega)
      · rfl

theorem le_foldl_max {α : Type} [LinearOrder α] (l : List α) (a : α) :
    a ≤ l.foldl max a := by
  induction l generalizing a with
  | nil => exact le_refl a
  | cons y ys ih => exact le_trans (le_max_left a y) (ih (max a y))

theorem mem_le_foldl_max {α : Type} [LinearOrder α] (l : List α) (a x : α)
    (hx : x ∈ l) : x ≤ l.foldl max a := by
  induction l generalizing a with
  | nil => cases hx
  | cons y ys ih =>
      rcases List.mem_cons.mp hx with h | h
      · subst h
        exact le_trans (le_max_right a x) (le_foldl_max ys (max a x))
      · exact ih (max a y) h

theorem foldl_max_mem {α : Type} [LinearOrder α] (l : List α) (a : α) :
    l.foldl max a = a ∨ l.foldl max a ∈ l := by
  induction l generalizing a with
  | nil => exact Or.inl rfl
  | cons y ys ih =>
      rcases ih (max a y) with h | h
      · rcases max_choice a y with hm | hm
        · exact Or.inl (h.trans hm)
        · exact Or.inr (List.mem_cons.mpr (Or.inl (h.trans hm)))
      · exact Or.inr (List.mem_cons.mpr (Or.inr h))

theorem foldl_min_le {α : Type} [LinearOrder α] (l : List α) (a : α) :
    l.foldl min a ≤ a := by
  induction l generalizing a with
  | nil => exact le_refl a
  | cons y ys ih => exact le_trans (ih (min a y)) (min_le_left a y)

theorem foldl_min_le_mem {α : Type} [LinearOrder α] (l : List α) (a x : α)
    (hx : x ∈ l) : l.foldl min a ≤ x := by
  induction l generalizing a with
  | nil => cases hx
  | cons y ys ih =>
      rcases List.mem_cons.mp hx with h | h
      · subst h
        exact le_trans (foldl_min_le ys (min a x)) (min_le_right a x)
      · exact ih (min a y) h

theorem foldl_min_mem {α : Type} [LinearOrder α] (l : List α) (a : α) :
    l.foldl min a = a ∨ l.foldl min a ∈ l := by
  induction l generalizing a with
  | nil => exact Or.inl rfl
  | cons y ys ih =>
      rcases ih (min a y) with h | h
      · rcases min_choice a y with hm | hm
        · exact Or.inl (h.trans hm)
        · exact Or.inr (List.mem_cons.mpr (Or.inl (h.trans hm)))
      · exact Or.inr (List.mem_cons.mpr (Or.inr h))

theorem mem_le_reduce1_max {α : Type} [LinearOrder α] (l : List α) (d x : α)
    (hx : x ∈ l) : x ≤ reduce1 max l d := by
  cases l with
  | nil => cases hx
  | cons y ys =>
      rcases List.mem_cons.mp hx with h | h
      · subst h
        exact le_foldl_max ys x
      · exact mem_le_foldl_max ys y x h

theorem reduce1_max_mem {α : Type} [LinearOrder α] (l : List α) (d : α)
    (hl : l ≠ []) : reduce1 max l d ∈ l := by
  cases l with
  | nil => exact absurd rfl hl
  | cons y ys =>
      rcases foldl_max_mem ys y with h | h
      · exact List.mem_cons.mpr (Or.inl h)
      · exact List.mem_cons.mpr (Or.inr h)

theorem reduce1_min_le_mem {α : Type} [LinearOrder α] (l : List α) (d x : α)
    (hx : x ∈ l) : reduce1 min l d ≤ x := by
  cases l with
  | nil => cases hx
  | cons y ys =>
      rcases List.mem_cons.mp hx with h | h
      · subst h
        exact foldl_min_le ys x
      · exact foldl_min_le_mem ys y x h

theorem reduce1_min_mem {α : Type} [LinearOrder α] (l : List α) (d : α)
    (hl : l ≠ []) : reduce1 min l d ∈ l := by
  cases l with
  | nil => exact absurd rfl hl
  | cons y ys =>
      rcases foldl_min_mem ys y with h | h
      · exact List.mem_cons.mpr (Or.inl h)
      · exact List.mem_cons.mpr (Or.inr h)

theorem le_reduce1_min {α : Type} [LinearOrder α] (l : List α) (d b : α)
    (h : ∀ x ∈ l, b ≤ x) (hd : l = [] → b ≤ d) : b ≤ reduce1 min l d := by
  cases l with
  | nil => exact hd rfl
  | cons y ys =>
      exact h _ (reduce1_min_mem (y :: ys) d (List.cons_ne_nil y ys))

theorem reduce1_max_le {α : Type} [LinearOrder α] (l : List α) (d b : α)
    (h : ∀ x ∈ l, x ≤ b) (hd : l = [] → d ≤ b) : reduce1 max l d ≤ b := by
  cases l with
  | nil => exact hd rfl
  | cons y ys =>
      exact h _ (reduce1_max_mem (y :: ys) d (List.cons_ne_nil y ys))

theorem mem_activeCells (kh kw : Nat) (mask : Option (Nat → Nat)) (i j : Nat) :
    (i, j) ∈ activeCells kh kw mask
      ↔ i < kh ∧ j < kw ∧ cellActive kw mask i j = true := by
  unfold activeCells
  simp only [List.mem_flatMap, List.mem_map, List.mem_filter, List.mem_range,
    Prod.mk.injEq]
  constructor
  · rintro ⟨a, ha, b, ⟨hb, hact⟩, hai, hbj⟩
    subst hai
    subst hbj
    exact ⟨ha, hb, hact⟩
  · rintro ⟨hi, hj, hact⟩
    exact ⟨i, hi, j, ⟨hj, hact⟩, rfl, rfl⟩

theorem activeCells_nil_iff_nbhdValues_nil {α : Type} (border : BorderType)
    (fill : α) (rows cols : Nat) (src : Nat → Nat → Nat → α) (kh kw : Nat)
    (mask : Option (Nat → Nat)) (r c ch : Nat) :
    nbhdValues border fill rows cols src kh kw mask r c ch = []
      ↔ activeCells kh kw mask = [] := by
  unfold nbhdValues
  exact List.map_eq_nil_iff

theorem anchor_mem_nbhdValues {α : Type} (border : BorderType) (fill : α)
    (rows cols : Nat) (src : Nat → Nat → Nat → α) (kh kw : Nat)
    (mask : Option (Nat → Nat)) (r c ch : Nat)
    (hkh : 0 < kh) (hkw : 0 < kw)
    (hanchor : cellActive kw mask (kh / 2) (kw / 2) = true)
    (hr : r < rows) (hc : c < cols) :
    src r c ch ∈ nbhdValues border fill rows cols src kh kw mask r c ch := by
  unfold nbhdValues
  refine List.mem_map.mpr ⟨(kh / 2, kw / 2),
    (mem_activeCells kh kw mask (kh / 2) (kw / 2)).mpr
      ⟨by omega, by omega, hanchor⟩, ?_⟩
  have h1 : ((r : Int) + ((kh / 2 : Nat) : Int) - ((kh / 2 : Nat) : Int)) = (r : Int) := by
    ring
  have h2 : ((c : Int) + ((kw / 2 : Nat) : Int) - ((kw / 2 : Nat) : Int)) = (c : Int) := by
    ring
  rw [h1, h2,
    resolvePixel_in_range border fill rows cols src (r : Int) (c : Int) ch
      (by omega) (by omega) (by omega) (by omega)]
  rw [Int.toNat_natCast, Int.toNat_natCast]

/-- C3 counterexample: at axis extent `N = 1` the reflection rule of the
claim has no in-range resolution for the neighbor index `-1`: a single
application of the rule sends `-1` to `1`, which is again out of range,
and applying the rule to `1` sends it back to `-1`, so the recursive
application of the rule cycles between `-1` and `1` and never produces a
coordinate in `[0, 1)`.  This refutes the claim as stated, which
quantifies over every axis extent and promises a valid in-range
coordinate for every input. -/
theorem c3_reflection_cycles_at_extent_one :
    reflectOnce 1 (-1) = 1 ∧ reflectOnce 1 1 = -1 ∧
      ¬ (0 ≤ reflectOnce 1 (-1) ∧ reflectOnce 1 (-1) < 1) ∧
      ¬ (0 ≤ reflectOnce 1 1 ∧ reflectOnce 1 1 < 1) := by
  decide

/-- C3 (amended to axis extents `N ≥ 2`): under the DEFAULT border
policy the resolver maps `index < 0` to `-index` and `index ≥ N` to
`2N - index - 2` (so `-1` maps to `1`, not `0`: reflection without
duplicating the edge pixel), leaves in-range indices unchanged, applies
the rule recursively (the two equations hold for the fully resolved
value), and produces a valid in-range coordinate for every integer
neighbor index. -/
theorem c3_default_border_reflection (N : Nat) (i : Int) (hN : 2 ≤ N) :
    (i < 0 → reflectIdx N i = reflectIdx N (-i)) ∧
    ((N : Int) ≤ i → reflectIdx N i = reflectIdx N (2 * (N : Int) - i - 2)) ∧
    (0 ≤ i → i < (N : Int) → reflectIdx N i = i) ∧
    (0 ≤ reflectIdx N i ∧ reflectIdx N i < (N : Int)) ∧
    reflectIdx N (-1) = 1 := by
  have hrange := reflectIdx_in_range N i
  refine ⟨fun h => reflectIdx_neg N i h,
    fun h => reflectIdx_high N i h,
    fun h0 h1 => reflectIdx_id N i h0 h1,
    ⟨hrange.1, hrange.2 (by omega)⟩, ?_⟩
  have hneg : (-1 : Int) < 0 := by norm_num
  rw [reflectIdx_neg N (-1) hneg]
  have h1 : (-(-1) : Int) = 1 := by norm_num
  rw [h1]
  exact reflectIdx_id N 1 (by norm_num) (by omega)

theorem c3_default_border_reflection_witness :
    reflectIdx 5 (-3) = 3 ∧ (0 ≤ reflectIdx 5 (-7) ∧ reflectIdx 5 (-7) < (5 : Int)) ∧
      reflectIdx 5 (-1) = 1 := by
  refine ⟨?_, ?_, ?_⟩
  · have h := (c3_default_border_reflection 5 (-3) (by norm_num)).1 (by norm_num)
    rw [h]
    have h1 : (-(-3) : Int) = 3 := by norm_num
    rw [h1]
    exact (c3_default_border_reflection 5 3 (by norm_num)).2.2.1 (by norm_num) (by norm_num)
  · have h := (c3_default_border_reflection 5 (-7) (by norm_num)).2.2.2.1
    exact_mod_cast h
  · exact (c3_default_border_reflection 5 (-7) (by norm_num)).2.2.2.2

/-- C4: under the CONSTANT border policy a neighbor read contributes the
single provided scalar fill value exactly when at least one of its two
axis coordinates is outside `[0, N)` for that axis (the returned value
is the fill scalar itself, hence identical for every channel and
interpreted in the element type of the image), and a neighbor with both
axes in range contributes the actual source pixel value. -/
theorem c4_constant_border_fill {α : Type} (fill : α) (rows cols : Nat)
    (src : Nat → Nat → Nat → α) (r c : Int) (ch : Nat) :
    ((r < 0 ∨ (rows : Int) ≤ r ∨ c < 0 ∨ (cols : Int) ≤ c) →
      resolvePixel BorderType.BORDER_TYPE_CONSTANT fill rows cols src r c ch = fill) ∧
    (0 ≤ r → r < (rows : Int) → 0 ≤ c → c < (cols : Int) →
      resolvePixel BorderType.BORDER_TYPE_CONSTANT fill rows cols src r c ch
        = src r.toNat c.toNat ch) := by
  constructor
  · intro h
    unfold resolvePixel
    rw [if_neg (by omega)]
  · intro h0 h1 h2 h3
    exact resolvePixel_in_range BorderType.BORDER_TYPE_CONSTANT fill rows cols src
      r c ch h0 h1 h2 h3

theorem c4_constant_border_fill_witness :
    resolvePixel BorderType.BORDER_TYPE_CONSTANT 7 2 2
        (fun _ _ _ => (3 : Nat)) (-1) 0 0 = 7 ∧
    resolvePixel BorderType.BORDER_TYPE_CONSTANT 7 2 2
        (fun _ _ _ => (3 : Nat)) 1 0 0 = 3 :=
  ⟨(c4_constant_border_fill 7 2 2 (fun _ _ _ => (3 : Nat)) (-1) 0 0).1
      (Or.inl (by norm_num)),
    (c4_constant_border_fill 7 2 2 (fun _ _ _ => (3 : Nat)) 1 0 0).2
      (by norm_num) (by norm_num) (by norm_num) (by norm_num)⟩

/-- C1: for every input image, structuring element with at least one
participating cell, border policy and fill value, and every output
position and channel inside the requested row range, the value written
by `Dilate` is the maximum — and the value written by `Erode` is the
minimum — over the list of participating source values of the
neighborhood, each neighbor resolved through the border policy (possibly
yielding the fill value).  Being the maximum is stated as: the written
value is a member of the list of participating resolved values and an
upper bound of it (dually for the minimum).  Channels are folded
independently (the value list of channel `ch` reads only channel `ch`),
and the output element type equals the input element type `α` with no
rounding or scaling, as the statement equates elements of `α` directly. -/
theorem c1_dilate_max_erode_min {α : Type} [LinearOrder α]
    (rowStart rowEnd rows cols channels : Nat)
    (src dst1 dst2 : Nat → Nat → Nat → α) (kh kw : Nat)
    (mask : Option (Nat → Nat)) (border : BorderType) (fill : α) (r c ch : Nat)
    (hcells : activeCells kh kw mask ≠ [])
    (hr0 : rowStart ≤ r) (hr1 : r < rowEnd) (hc : c < cols) (hch : ch < channels) :
    (Dilate rowStart rowEnd rows cols channels src kh kw mask dst1 border fill r c ch
        ∈ nbhdValues border fill rows cols src kh kw mask r c ch ∧
      ∀ v ∈ nbhdValues border fill rows cols src kh kw mask r c ch,
        v ≤ Dilate rowStart rowEnd rows cols channels src kh kw mask dst1 border fill r c ch) ∧
    (Erode rowStart rowEnd rows cols channels src kh kw mask dst2 border fill r c ch
        ∈ nbhdValues border fill rows cols src kh kw mask r c ch ∧
      ∀ v ∈ nbhdValues border fill rows cols src kh kw mask r c ch,
        Erode rowStart rowEnd rows cols channels src kh kw mask dst2 border fill r c ch ≤ v) := by
  have hg : rowStart ≤ r ∧ r < rowEnd ∧ c < cols ∧ ch < channels := ⟨hr0, hr1, hc, hch⟩
  have hvals : nbhdValues border fill rows cols src kh kw mask r c ch ≠ [] := by
    intro h
    exact hcells ((activeCells_nil_iff_nbhdValues_nil border fill rows cols src
      kh kw mask r c ch).mp h)
  unfold Dilate Erode filterRange morphPixel
  simp only [if_pos hg]
  exact ⟨⟨reduce1_max_mem _ _ hvals, fun v hv => mem_le_reduce1_max _ _ v hv⟩,
    ⟨reduce1_min_mem _ _ hvals, fun v hv => reduce1_min_le_mem _ _ v hv⟩⟩

theorem c1_dilate_max_erode_min_witness :
    Dilate 0 1 1 1 1 (fun _ _ _ => (4 : Nat)) 1 1 none (fun _ _ _ => 0)
        BorderType.BORDER_TYPE_CONSTANT 0 0 0 0
      ∈ nbhdValues BorderType.BORDER_TYPE_CONSTANT 0 1 1
          (fun _ _ _ => (4 : Nat)) 1 1 none 0 0 0 :=
  (c1_dilate_max_erode_min 0 1 1 1 1 (fun _ _ _ => (4 : Nat)) (fun _ _ _ => 0)
    (fun _ _ _ => 0) 1 1 none BorderType.BORDER_TYPE_CONSTANT 0 0 0 0
    (by decide) (by decide) (by decide) (by decide) (by decide)).1.1

/-- C7: for every image and structuring element whose participating
cells include the anchor cell, dilation satisfies
`image ≤ dilate(image)` and erosion satisfies `erode(image) ≤ image`,
elementwise at every valid pixel and channel of the requested row range,
under either border policy and any fill value. -/
theorem c7_dilate_ge_erode_le {α : Type} [LinearOrder α]
    (rowStart rowEnd rows cols channels : Nat)
    (src dst1 dst2 : Nat → Nat → Nat → α) (kh kw : Nat)
    (mask : Option (Nat → Nat)) (border : BorderType) (fill : α) (r c ch : Nat)
    (hkh : 0 < kh) (hkw : 0 < kw)
    (hanchor : cellActive kw mask (kh / 2) (kw / 2) = true)
    (hr0 : rowStart ≤ r) (hr1 : r < rowEnd) (hr2 : r < rows)
    (hc : c < cols) (hch : ch < channels) :
    src r c ch ≤
      Dilate rowStart rowEnd rows cols channels src kh kw mask dst1 border fill r c ch ∧
    Erode rowStart rowEnd rows cols channels src kh kw mask dst2 border fill r c ch
      ≤ src r c ch := by
  have hg : rowStart ≤ r ∧ r < rowEnd ∧ c < cols ∧ ch < channels := ⟨hr0, hr1, hc, hch⟩
  have hmem := anchor_mem_nbhdValues border fill rows cols src kh kw mask r c ch
    hkh hkw hanchor hr2 hc
  unfold Dilate Erode filterRange morphPixel
  simp only [if_pos hg]
  exact ⟨mem_le_reduce1_max _ _ _ hmem, reduce1_min_le_mem _ _ _ hmem⟩

theorem c7_dilate_ge_erode_le_witness :
    (fun _ _ _ => (6 : Nat)) 0 0 0 ≤
      Dilate 0 2 2 2 1 (fun _ _ _ => (6 : Nat)) 3 3 none (fun _ _ _ => 0)
        BorderType.BORDER_TYPE_DEFAULT 0 0 0 0 ∧
    Erode 0 2 2 2 1 (fun _ _ _ => (6 : Nat)) 3 3 none (fun _ _ _ => 9)
        BorderType.BORDER_TYPE_DEFAULT 0 0 0 0 ≤ (fun _ _ _ => (6 : Nat)) 0 0 0 :=
  c7_dilate_ge_erode_le 0 2 2 2 1 (fun _ _ _ => (6 : Nat)) (fun _ _ _ => 0)
    (fun _ _ _ => 9) 3 3 none BorderType.BORDER_TYPE_DEFAULT 0 0 0 0
    (by decide) (by decide) (by decide) (by decide) (by decide) (by decide)
    (by decide) (by decide)

/-- C10: dilation and erosion with a 1 by 1 full (unmasked) structuring
element are the identity on the full row range: every output pixel
equals the corresponding input pixel, for any element type, under either
border policy and any fill value (the single participating cell is the
anchor, which is always in range). -/
theorem c10_identity_kernel_1x1 {α : Type} [LinearOrder α]
    (rows cols channels : Nat) (src dst1 dst2 : Nat → Nat → Nat → α)
    (border : BorderType) (fill : α) (r c ch : Nat)
    (hr : r < rows) (hc : c < cols) (hch : ch < channels) :
    Dilate 0 rows rows cols channels src 1 1 none dst1 border fill r c ch
        = src r c ch ∧
    Erode 0 rows rows cols channels src 1 1 none dst2 border fill r c ch
        = src r c ch := by
  have hg : 0 ≤ r ∧ r < rows ∧ c < cols ∧ ch < channels := ⟨Nat.zero_le r, hr, hc, hch⟩
  have hcells : activeCells 1 1 none = [(0, 0)] := rfl
  have hv : nbhdValues border fill rows cols src 1 1 none r c ch = [src r c ch] := by
    unfold nbhdValues
    rw [hcells]
    simp only [List.map_cons, List.map_nil]
    have h1 : ((r : Int) + ((0 : Nat) : Int) - (((1 : Nat) / 2 : Nat) : Int)) = (r : Int) := by
      norm_num
    have h2 : ((c : Int) + ((0 : Nat) : Int) - (((1 : Nat) / 2 : Nat) : Int)) = (c : Int) := by
      norm_num
    rw [h1, h2,
      resolvePixel_in_range border fill rows cols src (r : Int) (c : Int) ch
        (by omega) (by omega) (by omega) (by omega),
      Int.toNat_natCast, Int.toNat_natCast]
  unfold Dilate Erode filterRange morphPixel
  simp only [if_pos hg, hv]
  exact ⟨rfl, rfl⟩

theorem c10_identity_kernel_1x1_witness :
    Dilate 0 1 1 1 1 (fun _ _ _ => (9 : Nat)) 1 1 none (fun _ _ _ => 0)
        BorderType.BORDER_TYPE_DEFAULT 3 0 0 0 = 9 ∧
    Erode 0 1 1 1 1 (fun _ _ _ => (9 : Nat)) 1 1 none (fun _ _ _ => 0)
        BorderType.BORDER_TYPE_DEFAULT 3 0 0 0 = 9 :=
  c10_identity_kernel_1x1 1 1 1 (fun _ _ _ => (9 : Nat)) (fun _ _ _ => 0)
    (fun _ _ _ => 0) BorderType.BORDER_TYPE_DEFAULT 3 0 0 0
    (by decide) (by decide) (by decide)

/-- C5: for a masked structuring element exactly the cells whose mask
entry is nonzero participate in the reduction (cells with a zero entry
appear nowhere in the enumerated participating cells, hence are neither
read nor folded, regardless of border status); and a call with an absent
mask behaves as a call with an all-ones mask of the same dimensions:
the participating cells coincide and `Dilate`/`Erode` produce identical
values everywhere. -/
theorem c5_mask_participation {α : Type} [LinearOrder α] :
    (∀ (kh kw : Nat) (m : Nat → Nat) (i j : Nat),
        ((i, j) ∈ activeCells kh kw (some m)
          ↔ i < kh ∧ j < kw ∧ m (i * kw + j) ≠ 0)) ∧
    (∀ (kh kw : Nat),
        activeCells kh kw none = activeCells kh kw (some fun _ => 1)) ∧
    (∀ (rowStart rowEnd rows cols channels : Nat)
        (src dst : Nat → Nat → Nat → α) (kh kw : Nat)
        (border : BorderType) (fill : α) (r c ch : Nat),
        Dilate rowStart rowEnd rows cols channels src kh kw none dst border fill r c ch
          = Dilate rowStart rowEnd rows cols channels src kh kw (some fun _ => 1) dst
              border fill r c ch ∧
        Erode rowStart rowEnd rows cols channels src kh kw none dst border fill r c ch
          = Erode rowStart rowEnd rows cols channels src kh kw (some fun _ => 1) dst
              border fill r c ch) := by
  have hcells : ∀ (kh kw : Nat),
      activeCells kh kw none = activeCells kh kw (some fun _ => 1) := by
    intro kh kw
    rfl
  refine ⟨?_, hcells, ?_⟩
  · intro kh kw m i j
    rw [mem_activeCells]
    simp [cellActive]
  · intro rowStart rowEnd rows cols channels src dst kh kw border fill r c ch
    unfold Dilate Erode filterRange morphPixel nbhdValues
    rw [hcells kh kw]
    exact ⟨rfl, rfl⟩

/-- C9: the engine is a pure function of the tuple (input image,
structuring element, border policy, fill value, row range): two
invocations whose observable inputs agree produce identical values at
every computed position.  The input images only need to agree on the
in-range pixels (no hidden input: out-of-range buffer contents are never
read), and the prior contents of the two output buffers may differ
arbitrarily (no persistent or cross-call state). -/
theorem c9_pure_no_hidden_input {α : Type} [LinearOrder α]
    (rowStart rowEnd rows cols channels : Nat)
    (src1 src2 dst1 dst2 : Nat → Nat → Nat → α) (kh kw : Nat)
    (mask : Option (Nat → Nat)) (border : BorderType) (fill : α)
    (hrows : 1 ≤ rows) (hcols : 1 ≤ cols) (hre : rowEnd ≤ rows)
    (hsrc : ∀ a b k, a < rows → b < cols → k < channels → src1 a b k = src2 a b k) :
    ∀ r c ch, rowStart ≤ r → r < rowEnd → c < cols → ch < channels →
      Dilate rowStart rowEnd rows cols channels src1 kh kw mask dst1 border fill r c ch
        = Dilate rowStart rowEnd rows cols channels src2 kh kw mask dst2 border fill r c ch ∧
      Erode rowStart rowEnd rows cols channels src1 kh kw mask dst1 border fill r c ch
        = Erode rowStart rowEnd rows cols channels src2 kh kw mask dst2 border fill r c ch := by
  intro r c ch hr0 hr1 hc hch
  have hg : rowStart ≤ r ∧ r < rowEnd ∧ c < cols ∧ ch < channels := ⟨hr0, hr1, hc, hch⟩
  have hval : nbhdValues border fill rows cols src1 kh kw mask r c ch
      = nbhdValues border fill rows cols src2 kh kw mask r c ch := by
    unfold nbhdValues
    refine List.map_congr_left ?_
    intro cell hcell
    exact resolvePixel_congr border fill rows cols src1 src2 _ _ ch hrows hcols
      (fun a b ha hb => hsrc a b ch ha hb hch)
  have hctr : src1 r c ch = src2 r c ch := hsrc r c ch (by omega) hc hch
  unfold Dilate Erode filterRange morphPixel
  simp only [if_pos hg, hval, hctr]
  exact ⟨trivial, trivial⟩

theorem c9_pure_no_hidden_input_witness :
    Dilate 0 1 1 1 1 (fun _ _ _ => (2 : Nat)) 1 1 none (fun _ _ _ => 0)
        BorderType.BORDER_TYPE_CONSTANT 0 0 0 0
      = Dilate 0 1 1 1 1 (fun a _ _ => if a = 0 then (2 : Nat) else 99) 1 1 none
          (fun _ _ _ => 7) BorderType.BORDER_TYPE_CONSTANT 0 0 0 0 :=
  (c9_pure_no_hidden_input 0 1 1 1 1 (fun _ _ _ => (2 : Nat))
    (fun a _ _ => if a = 0 then (2 : Nat) else 99) (fun _ _ _ => 0) (fun _ _ _ => 7)
    1 1 none BorderType.BORDER_TYPE_CONSTANT 0
    (by decide) (by decide) (by decide)
    (fun a b k ha hb hk => by
      have h0 : a = 0 := by omega
      subst h0
      rfl) 0 0 0
    (by decide) (by decide) (by decide) (by decide)).1

theorem applyRanges_apply {α : Type} (op : α → α → α) (ranges : List (Nat × Nat))
    (rows cols channels : Nat) (src : Nat → Nat → Nat → α) (kh kw : Nat)
    (mask : Option (Nat → Nat)) (dst : Nat → Nat → Nat → α)
    (border : BorderType) (fill : α) (r c ch : Nat) :
    applyRanges op ranges rows cols channels src kh kw mask dst border fill r c ch
      = if (∃ p ∈ ranges, p.1 ≤ r ∧ r < p.2) ∧ c < cols ∧ ch < channels then
          morphPixel op rows cols src kh kw mask border fill r c ch
        else dst r c ch := by
  induction ranges generalizing dst with
  | nil =>
      simp [applyRanges]
  | cons p t ih =>
      unfold applyRanges at ih ⊢
      rw [List.foldl_cons, ih]
      unfold filterRange
      by_cases hcc : c < cols ∧ ch < channels
      · by_cases hp : p.1 ≤ r ∧ r < p.2
        · by_cases ht : ∃ q ∈ t, q.1 ≤ r ∧ r < q.2
          · rw [if_pos ⟨ht, hcc⟩, if_pos ⟨⟨p, List.mem_cons_self p t, hp⟩, hcc⟩]
          · rw [if_neg (fun h => ht h.1), if_pos ⟨hp.1, hp.2, hcc.1, hcc.2⟩,
              if_pos ⟨⟨p, List.mem_cons_self p t, hp⟩, hcc⟩]
        · by_cases ht : ∃ q ∈ t, q.1 ≤ r ∧ r < q.2
          · rcases ht with ⟨q, hq, hqr⟩
            rw [if_pos ⟨⟨q, hq, hqr⟩, hcc⟩,
              if_pos ⟨⟨q, List.mem_cons_of_mem p hq, hqr⟩, hcc⟩]
          · rw [if_neg (fun h => ht h.1), if_neg (by tauto), if_neg ?_]
            rintro ⟨⟨q, hq, hqr⟩, -⟩
            rcases List.mem_cons.mp hq with h | h
            · exact hp (h ▸ hqr)
            · exact ht ⟨q, h, hqr⟩
      · rw [if_neg (by tauto), if_neg (by tauto), if_neg (by tauto)]

/-- C6: for every partition of the full row range `[0, rows)` into
disjoint row ranges, computing the output through the separate per-range
calls equals the single full-range call at every buffer position, the
result is independent of the order in which the ranges are processed
(any permutation of the range list yields the same output function),
and in particular one call over `[0, rows)` equals the two calls over
`[0, rows/2)` and `[rows/2, rows)`.  (Disjointness is assumed as in the
claim; the proof shows the result holds for any exact cover because all
ranges write identical values.) -/
theorem c6_row_range_composability {α : Type} [LinearOrder α]
    (ranges : List (Nat × Nat)) (rows cols channels : Nat)
    (src dst : Nat → Nat → Nat → α) (kh kw : Nat) (mask : Option (Nat → Nat))
    (border : BorderType) (fill : α)
    (hcover : ∀ r, r < rows → ∃ p ∈ ranges, p.1 ≤ r ∧ r < p.2)
    (hbound : ∀ p ∈ ranges, p.2 ≤ rows)
    (_hdisj : ranges.Pairwise fun p q => p.2 ≤ q.1 ∨ q.2 ≤ p.1) :
    (∀ r c ch,
        applyRanges max ranges rows cols channels src kh kw mask dst border fill r c ch
          = Dilate 0 rows rows cols channels src kh kw mask dst border fill r c ch ∧
        applyRanges min ranges rows cols channels src kh kw mask dst border fill r c ch
          = Erode 0 rows rows cols channels src kh kw mask dst border fill r c ch) ∧
    (∀ (ranges2 : List (Nat × Nat)), ranges.Perm ranges2 →
      ∀ (op : α → α → α) (r c ch : Nat),
        applyRanges op ranges rows cols channels src kh kw mask dst border fill r c ch
          = applyRanges op ranges2 rows cols channels src kh kw mask dst border fill r c ch) ∧
    (∀ (op : α → α → α) (r c ch : Nat),
        applyRanges op [(0, rows / 2), (rows / 2, rows)] rows cols channels src kh kw
            mask dst border fill r c ch
          = filterRange op 0 rows rows cols channels src kh kw mask dst border fill r c ch) := by
  refine ⟨?_, ?_, ?_⟩
  · intro r c ch
    have key : ∀ (op : α → α → α),
        applyRanges op ranges rows cols channels src kh kw mask dst border fill r c ch
          = filterRange op 0 rows rows cols channels src kh kw mask dst border fill r c ch := by
      intro op
      rw [applyRanges_apply]
      unfold filterRange
      have hiff : ((∃ p ∈ ranges, p.1 ≤ r ∧ r < p.2) ∧ c < cols ∧ ch < channels)
          ↔ (0 ≤ r ∧ r < rows ∧ c < cols ∧ ch < channels) := by
        constructor
        · rintro ⟨⟨p, hp, h1, h2⟩, hc, hch⟩
          have hb := hbound p hp
          exact ⟨Nat.zero_le r, by omega, hc, hch⟩
        · rintro ⟨-, hr, hc, hch⟩
          exact ⟨hcover r hr, hc, hch⟩
      rw [if_congr hiff rfl rfl]
    exact ⟨key max, key min⟩
  · intro ranges2 hperm op r c ch
    rw [applyRanges_apply, applyRanges_apply]
    have hiff : ((∃ p ∈ ranges, p.1 ≤ r ∧ r < p.2) ∧ c < cols ∧ ch < channels)
        ↔ ((∃ p ∈ ranges2, p.1 ≤ r ∧ r < p.2) ∧ c < cols ∧ ch < channels) := by
      constructor <;> rintro ⟨⟨p, hp, hpr⟩, hrest⟩
      · exact ⟨⟨p, hperm.mem_iff.mp hp, hpr⟩, hrest⟩
      · exact ⟨⟨p, hperm.mem_iff.mpr hp, hpr⟩, hrest⟩
    rw [if_congr hiff rfl rfl]
  · intro op r c ch
    rw [applyRanges_apply]
    unfold filterRange
    have hiff : ((∃ p ∈ [(0, rows / 2), (rows / 2, rows)], p.1 ≤ r ∧ r < p.2)
          ∧ c < cols ∧ ch < channels)
        ↔ (0 ≤ r ∧ r < rows ∧ c < cols ∧ ch < channels) := by
      constructor
      · rintro ⟨h, hc, hch⟩
        refine ⟨Nat.zero_le r, ?_, hc, hch⟩
        simp only [List.exists_mem_cons_iff] at h
        rcases h with h | h | h
        · exact lt_of_lt_of_le h.2 (Nat.div_le_self rows 2)
        · exact h.2
        · simp at h
      · rintro ⟨-, hr, hc, hch⟩
        refine ⟨?_, hc, hch⟩
        by_cases h : r < rows / 2
        · exact ⟨(0, rows / 2), by simp, Nat.zero_le r, h⟩
        · exact ⟨(rows / 2, rows), by simp, by omega, hr⟩
    rw [if_congr hiff rfl rfl]

theorem c6_row_range_composability_witness :
    applyRanges max [(0, 1), (1, 2)] 2 1 1 (fun _ _ _ => (3 : Nat)) 1 1 none
        (fun _ _ _ => 0) BorderType.BORDER_TYPE_CONSTANT 0 0 0 0
      = Dilate 0 2 2 1 1 (fun _ _ _ => (3 : Nat)) 1 1 none (fun _ _ _ => 0)
          BorderType.BORDER_TYPE_CONSTANT 0 0 0 0 :=
  ((c6_row_range_composability [(0, 1), (1, 2)] 2 1 1 (fun _ _ _ => (3 : Nat))
    (fun _ _ _ => 0) 1 1 none BorderType.BORDER_TYPE_CONSTANT 0
    (by decide) (by decide) (by decide)).1 0 0 0).1

theorem center_mem_nbhdValues_of_shift {α : Type} (border : BorderType) (fill : α)
    (rows cols : Nat) (src : Nat → Nat → Nat → α) (kh kw : Nat)
    (mask : Option (Nat → Nat)) (r c ch i j : Nat)
    (hkh : kh % 2 = 1) (hkw : kw % 2 = 1) (hi : i < kh) (hj : j < kw)
    (hactive : cellActive kw mask (kh - 1 - i) (kw - 1 - j) = true)
    (hr0 : kh / 2 ≤ r) (hr1 : r + kh / 2 < rows)
    (hc0 : kw / 2 ≤ c) (hc1 : c + kw / 2 < cols) :
    src r c ch ∈ nbhdValues border fill rows cols src kh kw mask
      (r + i - kh / 2) (c + j - kw / 2) ch := by
  unfold nbhdValues
  refine List.mem_map.mpr ⟨(kh - 1 - i, kw - 1 - j),
    (mem_activeCells kh kw mask _ _).mpr ⟨by omega, by omega, hactive⟩, ?_⟩
  dsimp only
  have h1 : ((r + i - kh / 2 : Nat) : Int) + ((kh - 1 - i : Nat) : Int)
      - ((kh / 2 : Nat) : Int) = (r : Int) := by omega
  have h2 : ((c + j - kw / 2 : Nat) : Int) + ((kw - 1 - j : Nat) : Int)
      - ((kw / 2 : Nat) : Int) = (c : Int) := by omega
  rw [h1, h2,
    resolvePixel_in_range border fill rows cols src (r : Int) (c : Int) ch
      (by omega) (by omega) (by omega) (by omega),
    Int.toNat_natCast, Int.toNat_natCast]

/-- C8 counterexample: the claim quantifies over every image and every
structuring element, but near the image border the composition fails:
on the single-row image `[5, 0, 0, 0, 0]` with the full 1 by 3
structuring element (odd, not larger than the image) under the CONSTANT
border policy with fill value 0, erosion of the dilation at pixel
`(0, 0)` reads an out-of-range neighbor that resolves to the fill value
0, so `erode(dilate(image))` is 0 at `(0, 0)` while the image value is
5 — refuting `erode(dilate(image)) ≥ image` elementwise. -/
theorem c8_erode_dilate_not_extensive_counterexample :
    Erode 0 1 1 5 1
        (Dilate 0 1 1 5 1 (fun _ c _ => if c = 0 then 5 else 0) 1 3 none
          (fun _ _ _ => (0 : Nat)) BorderType.BORDER_TYPE_CONSTANT 0)
        1 3 none (fun _ _ _ => (0 : Nat)) BorderType.BORDER_TYPE_CONSTANT 0 0 0 0
      < (fun _ c _ => if c = 0 then (5 : Nat) else 0) 0 0 0 := by
  decide

/-- C8 (amended): for every image and every structuring element with
odd dimensions whose participating-cell pattern is symmetric about the
anchor, at every pixel whose full kernel rectangle lies inside the
image (so that every neighbor of the outer pass is in range),
`erode(dilate(image)) ≥ image` and `dilate(erode(image)) ≤ image`
elementwise, with the same structuring element used in both passes,
under either border policy and any fill value.  (The counterexample
forces both restrictions: near the border the CONSTANT fill enters the
outer reduction directly, and an asymmetric element has no matching
opposite cell.) -/
theorem c8_close_open_amended {α : Type} [LinearOrder α]
    (rows cols channels : Nat) (src dstA dstB dstC dstD : Nat → Nat → Nat → α)
    (kh kw : Nat) (mask : Option (Nat → Nat)) (border : BorderType) (fill : α)
    (hkh : kh % 2 = 1) (hkw : kw % 2 = 1)
    (hsym : ∀ i j, i < kh → j < kw →
        cellActive kw mask i j = cellActive kw mask (kh - 1 - i) (kw - 1 - j))
    (r c ch : Nat)
    (hr0 : kh / 2 ≤ r) (hr1 : r + kh / 2 < rows)
    (hc0 : kw / 2 ≤ c) (hc1 : c + kw / 2 < cols) (hch : ch < channels) :
    src r c ch ≤
      Erode 0 rows rows cols channels
        (Dilate 0 rows rows cols channels src kh kw mask dstA border fill)
        kh kw mask dstB border fill r c ch ∧
    Dilate 0 rows rows cols channels
        (Erode 0 rows rows cols channels src kh kw mask dstC border fill)
        kh kw mask dstD border fill r c ch ≤ src r c ch := by
  have hg : 0 ≤ r ∧ r < rows ∧ c < cols ∧ ch < channels :=
    ⟨Nat.zero_le r, by omega, hc1.trans_le' (by omega), hch⟩
  constructor
  · unfold Erode filterRange
    rw [if_pos hg]
    unfold morphPixel
    apply le_reduce1_min
    · intro x hx
      unfold nbhdValues at hx
      rcases List.mem_map.mp hx with ⟨⟨i, j⟩, hcell, rfl⟩
      obtain ⟨hi, hj, hact⟩ := (mem_activeCells kh kw mask i j).mp hcell
      dsimp only
      have e1 : (r : Int) + ((i : Nat) : Int) - ((kh / 2 : Nat) : Int)
          = ((r + i - kh / 2 : Nat) : Int) := by omega
      have e2 : (c : Int) + ((j : Nat) : Int) - ((kw / 2 : Nat) : Int)
          = ((c + j - kw / 2 : Nat) : Int) := by omega
      rw [e1, e2,
        resolvePixel_in_range border fill rows cols _ _ _ ch
          (by omega) (by omega) (by omega) (by omega),
        Int.toNat_natCast, Int.toNat_natCast]
      unfold Dilate filterRange
      rw [if_pos ⟨Nat.zero_le _, by omega, by omega, hch⟩]
      unfold morphPixel
      refine mem_le_reduce1_max _ _ _ ?_
      exact center_mem_nbhdValues_of_shift border fill rows cols src kh kw mask
        r c ch i j hkh hkw hi hj (by rw [← hsym i j hi hj]; exact hact)
        hr0 hr1 hc0 hc1
    · intro hempty
      have hcells : activeCells kh kw mask = [] :=
        (activeCells_nil_iff_nbhdValues_nil border fill rows cols _
          kh kw mask r c ch).mp hempty
      unfold Dilate filterRange
      rw [if_pos hg]
      unfold morphPixel
      have hnil : nbhdValues border fill rows cols src kh kw mask r c ch = [] := by
        unfold nbhdValues
        rw [hcells]
        rfl
      rw [hnil]
      exact le_refl _
  · unfold Dilate filterRange
    rw [if_pos hg]
    unfold morphPixel
    apply reduce1_max_le
    · intro x hx
      unfold nbhdValues at hx
      rcases List.mem_map.mp hx with ⟨⟨i, j⟩, hcell, rfl⟩
      obtain ⟨hi, hj, hact⟩ := (mem_activeCells kh kw mask i j).mp hcell
      dsimp only
      have e1 : (r : Int) + ((i : Nat) : Int) - ((kh / 2 : Nat) : Int)
          = ((r + i - kh / 2 : Nat) : Int) := by omega
      have e2 : (c : Int) + ((j : Nat) : Int) - ((kw / 2 : Nat) : Int)
          = ((c + j - kw / 2 : Nat) : Int) := by omega
      rw [e1, e2,
        resolvePixel_in_range border fill rows cols _ _ _ ch
          (by omega) (by omega) (by omega) (by omega),
        Int.toNat_natCast, Int.toNat_natCast]
      unfold Erode filterRange
      rw [if_pos ⟨Nat.zero_le _, by omega, by omega, hch⟩]
      unfold morphPixel
      refine reduce1_min_le_mem _ _ _ ?_
      exact center_mem_nbhdValues_of_shift border fill rows cols src kh kw mask
        r c ch i j hkh hkw hi hj (by rw [← hsym i j hi hj]; exact hact)
        hr0 hr1 hc0 hc1
    · intro hempty
      have hcells : activeCells kh kw mask = [] :=
        (activeCells_nil_iff_nbhdValues_nil border fill rows cols _
          kh kw mask r c ch).mp hempty
      unfold Erode filterRange
      rw [if_pos hg]
      unfold morphPixel
      have hnil : nbhdValues border fill rows cols src kh kw mask r c ch = [] := by
        unfold nbhdValues
        rw [hcells]
        rfl
      rw [hnil]
      exact le_refl _

theorem c8_close_open_amended_witness :
    (fun _ _ _ => (4 : Nat)) 1 1 0 ≤
      Erode 0 3 3 3 1
        (Dilate 0 3 3 3 1 (fun _ _ _ => (4 : Nat)) 3 3 none (fun _ _ _ => 0)
          BorderType.BORDER_TYPE_CONSTANT 0)
        3 3 none (fun _ _ _ => 0) BorderType.BORDER_TYPE_CONSTANT 0 1 1 0 :=
  (c8_close_open_amended 3 3 1 (fun _ _ _ => (4 : Nat)) (fun _ _ _ => 0)
    (fun _ _ _ => 0) (fun _ _ _ => 0) (fun _ _ _ => 0) 3 3 none
    BorderType.BORDER_TYPE_CONSTANT 0 (by decide) (by decide)
    (fun _ _ _ _ => rfl) 1 1 0 (by decide) (by decide) (by decide) (by decide)
    (by decide)).1

/-- Modelled from the spec: the correctness oracle of section 6
(`cv::dilate` / `cv::erode`), an external collaborator absent from the
repository.  It accepts the structuring element as an explicit 2-D
binary matrix `elem` (not a flat buffer) together with an explicit
anchor `(anchorY, anchorX)` and a border mode, and folds the source
values at the cells with a nonzero element entry, each read at
`(r + i - anchorY, c + j - anchorX)` and resolved through the border
policy (`BORDER_DEFAULT` is reflect-101, the same reflection rule as
the engine; `BORDER_CONSTANT` uses the provided border value). -/
def cvMorph {α : Type} (op : α → α → α) (rows cols : Nat)
    (src : Nat → Nat → Nat → α) (kh kw : Nat) (elem : Nat → Nat → Nat)
    (anchorY anchorX : Nat) (border : BorderType) (fill : α) (r c ch : Nat) : α :=
  reduce1 op
    ((List.range kh).flatMap fun i =>
      (List.range kw).filterMap fun j =>
        if elem i j ≠ 0 then
          some (resolvePixel border fill rows cols src
            ((r : Int) + (i : Int) - (anchorY : Int))
            ((c : Int) + (j : Int) - (anchorX : Int)) ch)
        else none)
    (src r c ch)

theorem filterMap_ite_eq_filter_map {β γ : Type} (l : List β) (q : β → Prop)
    [DecidablePred q] (f : β → γ) :
    l.filterMap (fun x => if q x then some (f x) else none)
      = (l.filter fun x => decide (q x)).map f := by
  induction l with
  | nil => rfl
  | cons x t ih =>
      by_cases h : q x
      · simp [List.filterMap_cons, List.filter_cons, h, ih]
      · simp [List.filterMap_cons, List.filter_cons, h, ih]

theorem morphPixel_eq_cvMorph {α : Type} (op : α → α → α) (rows cols : Nat)
    (src : Nat → Nat → Nat → α) (kh kw : Nat) (mask : Option (Nat → Nat))
    (elem : Nat → Nat → Nat) (border : BorderType) (fill : α) (r c ch : Nat)
    (hcorr : ∀ i j, i < kh → j < kw →
        decide (elem i j ≠ 0) = cellActive kw mask i j) :
    morphPixel op rows cols src kh kw mask border fill r c ch
      = cvMorph op rows cols src kh kw elem (kh / 2) (kw / 2) border fill r c ch := by
  unfold morphPixel cvMorph nbhdValues activeCells
  congr 1
  rw [List.map_flatMap]
  refine List.flatMap_congr ?_
  intro i hi
  rw [filterMap_ite_eq_filter_map, List.map_map]
  have hfil : List.filter (fun x => decide (elem i x ≠ 0)) (List.range kw)
      = List.filter (fun j => cellActive kw mask i j) (List.range kw) :=
    List.filter_congr fun j hj =>
      hcorr i j (List.mem_range.mp hi) (List.mem_range.mp hj)
  rw [hfil]
  refine (List.map_congr_left ?_).symm
  intro j hj
  rfl

/-- C2: the engine agrees with the trusted reference oracle.  Since the
engine reads the structuring element as a flat row-major buffer and the
oracle reads it as an explicit 2-D binary matrix with a center anchor,
the hypothesis relates the two representations cell by cell; under it
the outputs are equal exactly, hence within the stated per-element
tolerances: absolute difference at most 1 for the 8-bit integral
element type (modelled by `Int`), and relative difference at most
`1/1000000` for the 32-bit floating element type (whose max/min
selection on the non-NaN test domain is order-exact, modelled by
`Rat`).  Both folds (`max` for dilation, `min` for erosion) are covered
by the quantified reduction operation, and every kernel size, channel
count and border policy is covered by the quantifiers. -/
theorem c2_engine_matches_oracle :
    (∀ (rows cols kh kw : Nat) (mask : Option (Nat → Nat))
        (elem : Nat → Nat → Nat) (border : BorderType) (fill : Int)
        (src : Nat → Nat → Nat → Int) (op : Int → Int → Int) (r c ch : Nat),
        (∀ i j, i < kh → j < kw →
            decide (elem i j ≠ 0) = cellActive kw mask i j) →
        morphPixel op rows cols src kh kw mask border fill r c ch
            = cvMorph op rows cols src kh kw elem (kh / 2) (kw / 2) border fill r c ch
          ∧ (morphPixel op rows cols src kh kw mask border fill r c ch
              - cvMorph op rows cols src kh kw elem (kh / 2) (kw / 2) border
                  fill r c ch).natAbs ≤ 1) ∧
    (∀ (rows cols kh kw : Nat) (mask : Option (Nat → Nat))
        (elem : Nat → Nat → Nat) (border : BorderType) (fill : Rat)
        (src : Nat → Nat → Nat → Rat) (op : Rat → Rat → Rat) (r c ch : Nat),
        (∀ i j, i < kh → j < kw →
            decide (elem i j ≠ 0) = cellActive kw mask i j) →
        |morphPixel op rows cols src kh kw mask border fill r c ch
            - cvMorph op rows cols src kh kw elem (kh / 2) (kw / 2) border fill r c ch|
          ≤ (1 / 1000000) *
            |cvMorph op rows cols src kh kw elem (kh / 2) (kw / 2) border fill r c ch|) := by
  constructor
  · intro rows cols kh kw mask elem border fill src op r c ch hcorr
    have h := morphPixel_eq_cvMorph op rows cols src kh kw mask elem border fill
      r c ch hcorr
    refine ⟨h, ?_⟩
    rw [h]
    simp
  · intro rows cols kh kw mask elem border fill src op r c ch hcorr
    rw [morphPixel_eq_cvMorph op rows cols src kh kw mask elem border fill
      r c ch hcorr]
    simp only [sub_self, abs_zero]
    positivity

theorem c2_engine_matches_oracle_witness :
    (morphPixel (fun a b => max a b) 1 1 (fun _ _ _ => (2 : Int)) 1 1 none
        BorderType.BORDER_TYPE_CONSTANT 0 0 0 0
      - cvMorph (fun a b => max a b) 1 1 (fun _ _ _ => (2 : Int)) 1 1
          (fun _ _ => 1) (1 / 2) (1 / 2) BorderType.BORDER_TYPE_CONSTANT
          0 0 0 0).natAbs ≤ 1 ∧
    |morphPixel (fun a b => min a b) 1 1 (fun _ _ _ => (3 : Rat)) 1 1 none
        BorderType.BORDER_TYPE_CONSTANT 0 0 0 0
      - cvMorph (fun a b => min a b) 1 1 (fun _ _ _ => (3 : Rat)) 1 1
          (fun _ _ => 1) (1 / 2) (1 / 2) BorderType.BORDER_TYPE_CONSTANT
          0 0 0 0|
      ≤ (1 / 1000000) *
        |cvMorph (fun a b => min a b) 1 1 (fun _ _ _ => (3 : Rat)) 1 1
          (fun _ _ => 1) (1 / 2) (1 / 2) BorderType.BORDER_TYPE_CONSTANT
          0 0 0 0| :=
  ⟨(c2_engine_matches_oracle.1 1 1 1 1 none (fun _ _ => 1)
      BorderType.BORDER_TYPE_CONSTANT 0 (fun _ _ _ => (2 : Int))
      (fun a b => max a b) 0 0 0 (fun _ _ _ _ => rfl)).2,
    c2_engine_matches_oracle.2 1 1 1 1 none (fun _ _ => 1)
      BorderType.BORDER_TYPE_CONSTANT 0 (fun _ _ _ => (3 : Rat))
      (fun a b => min a b) 0 0 0 (fun _ _ _ _ => rfl)⟩
